import Mathlib

/-!
Verification of the semantic-communication framework's core algorithms,
shallowly embedded from the Python sources.

Bytes are modelled as natural numbers (inputs taken from real byte strings
are < 256; none of the verified properties depends on that bound unless
stated).  Byte strings are `List Nat`.  Fallible code returns `Option` /
`Except`.
-/

/-! ## BlockCodec (src/image_process/block_codec/block_codec.py) -/

/-- The codec tag passed to `BlockCodec.encode` / `decode` (`codec_type`
in the source); any string other than the three known ones selects the
default marker `BLKX`, so unknown tags are collapsed into one variant. -/
inductive CodecTag where
  | jpeg
  | jpeg2000
  | jpeg2000bgr
  | other
deriving DecidableEq, Repr

/-- FEC strategy (`fec_strategy` constructor argument): `'repetition'` or
`'xor'`. -/
inductive FecStrategy where
  | repetition
  | xor
deriving DecidableEq, Repr

/-- `BlockCodec.__init__` configuration: block size, FEC strategy and
FEC level. -/
structure BCConfig where
  blockSize : Nat
  fecStrategy : FecStrategy
  fecLevel : Nat
deriving DecidableEq, Repr

/-- The 4-byte magic markers of `marker_dict` in
`_generate_frame_marker` / `_parse_frame_marker` (ASCII codes of
`BLKJ`, `BLK2`, `BLKB`, default `BLKX`). -/
def magicMarker : CodecTag → List Nat
  | .jpeg => [66, 76, 75, 74]
  | .jpeg2000 => [66, 76, 75, 50]
  | .jpeg2000bgr => [66, 76, 75, 66]
  | .other => [66, 76, 75, 88]

/-- `struct.pack('>I', n)`: big-endian 4-byte encoding.  The Python call
raises for `n ≥ 2^32`; theorems about packed fields therefore restrict
to `n < 2^32`. -/
def be32 (n : Nat) : List Nat :=
  [n / 2 ^ 24 % 256, n / 2 ^ 16 % 256, n / 2 ^ 8 % 256, n % 256]

/-- `struct.unpack('>I', b)`: read a big-endian 32-bit integer from the
first four bytes. -/
def fromBe32 (l : List Nat) : Nat :=
  l.getD 0 0 * 2 ^ 24 + l.getD 1 0 * 2 ^ 16 + l.getD 2 0 * 2 ^ 8 + l.getD 3 0

/-- Fuel-driven helper for splitting a list into consecutive chunks of
`size` elements (the final chunk may be shorter).  Fuel is the list
length, so the recursion is structural and kernel-reducible. -/
def chunkAux (size : Nat) : Nat → List α → List (List α)
  | 0, _ => []
  | _, [] => []
  | fuel + 1, a :: l => ((a :: l).take size) :: chunkAux size fuel (l.drop (size - 1))

/-- `[l[i:i+size] for i in range(0, len(l), size)]`, the grouping used by
`_split_into_blocks` and `_repetition_decode`.  Meaningful for
`size ≥ 1` (Python `range` raises on step 0; the callers guard that
case separately). -/
def chunkList (size : Nat) (l : List α) : List (List α) :=
  chunkAux size l.length l

/-- `_split_into_blocks`: split into `block_size`-byte blocks, the final
block right-padded with zero bytes (`block.ljust(block_size, b'\x00')`). -/
def splitIntoBlocks (bs : Nat) (data : List Nat) : List (List Nat) :=
  (chunkList bs data).map fun b => b ++ List.replicate (bs - b.length) 0

/-- `_repetition_encode`: each block repeated `fec_level` times
consecutively. -/
def repetitionEncode (level : Nat) (blocks : List (List Nat)) : List (List Nat) :=
  (blocks.map (List.replicate level)).flatten

/-- One parity block of `_xor_encode`: byte-wise XOR of all blocks at
positions `0 .. block_size - 1`.  The source indexes `block[k]` for
`k < block_size`; every block it is applied to has exactly `block_size`
bytes, which `getD` reflects. -/
def xorParityBlock (bs : Nat) (blocks : List (List Nat)) : List Nat :=
  (List.range bs).map fun k => blocks.foldl (fun acc b => acc ^^^ b.getD k 0) 0

/-- `_xor_encode`: the original blocks followed by `fec_level` identical
parity blocks; the empty block list is returned unchanged (early
`return []`). -/
def xorEncode (bs level : Nat) (blocks : List (List Nat)) : List (List Nat) :=
  if blocks = [] then []
  else blocks ++ List.replicate level (xorParityBlock bs blocks)

/-- `_apply_fec`, restricted to the two supported strategies. -/
def applyFec (cfg : BCConfig) (blocks : List (List Nat)) : List (List Nat) :=
  match cfg.fecStrategy with
  | .repetition => repetitionEncode cfg.fecLevel blocks
  | .xor => xorEncode cfg.blockSize cfg.fecLevel blocks

/-- The numeric strategy code written into the header
(`0 if self.fec_strategy == 'repetition' else 1`). -/
def fecCode : FecStrategy → Nat
  | .repetition => 0
  | .xor => 1

/-- `_generate_frame_marker`: `marker + struct.pack('>III BB',
original_size, block_size, 0, fec_strategy_code, fec_level)`.
`pack('>B', fec_level)` raises for `fec_level ≥ 256`; theorems restrict
accordingly. -/
def generateFrameMarker (cfg : BCConfig) (tag : CodecTag) (originalSize : Nat) : List Nat :=
  magicMarker tag ++ be32 originalSize ++ be32 cfg.blockSize ++ be32 0 ++
    [fecCode cfg.fecStrategy] ++ [cfg.fecLevel]

/-- `_assemble_encoded_data`: marker, then `pack('>II', block_count,
block_size)`, then the concatenated blocks. -/
def assembleEncodedData (cfg : BCConfig) (marker : List Nat)
    (encodedBlocks : List (List Nat)) : List Nat :=
  marker ++ be32 encodedBlocks.length ++ be32 cfg.blockSize ++ encodedBlocks.flatten

/-- `BlockCodec.encode`. -/
def encode (cfg : BCConfig) (data : List Nat) (tag : CodecTag) : List Nat :=
  assembleEncodedData cfg (generateFrameMarker cfg tag data.length)
    (applyFec cfg (splitIntoBlocks cfg.blockSize data))

/-- `_parse_frame_marker`: `(None, None)` when the input is shorter than
the 18-byte header or the first 4 bytes differ from the expected marker;
otherwise `(original_size, 18)`. -/
def parseFrameMarker (data : List Nat) (tag : CodecTag) : Option (Nat × Nat) :=
  if data.length < 18 then none
  else if data.take 4 ≠ magicMarker tag then none
  else some (fromBe32 ((data.drop 4).take 4), 18)

/-- The block-collecting loop of `_parse_encoded_blocks`: for
`i = start, start+1, ...` (`count` iterations of fuel), take
`payload[8 + i*bs : 8 + (i+1)*bs]` while it lies inside the payload and
stop at the first block that would overrun (`break`), silently dropping
any truncated trailing partial block. -/
def parseBlocksAux (payload : List Nat) (bs : Nat) : Nat → Nat → List (List Nat)
  | 0, _ => []
  | count + 1, i =>
    if 8 + (i + 1) * bs ≤ payload.length then
      ((payload.drop (8 + i * bs)).take bs) :: parseBlocksAux payload bs count (i + 1)
    else []

/-- `_parse_encoded_blocks`: `[]` for payloads shorter than 8 bytes;
otherwise read `block_count` and `block_size` from the first 8 bytes and
collect the full blocks that follow. -/
def parseEncodedBlocks (payload : List Nat) : List (List Nat) :=
  if payload.length < 8 then []
  else parseBlocksAux payload (fromBe32 ((payload.drop 4).take 4))
    (fromBe32 (payload.take 4)) 0

/-- Fuel-driven first-occurrence key list: the keys of the Python dict
`byte_counts` in the order they are first inserted while scanning the
copies.  Fuel is the list length (each filtered tail is no longer than
the tail). -/
def firstKeysAux : Nat → List Nat → List Nat
  | 0, _ => []
  | _, [] => []
  | fuel + 1, v :: vs => v :: firstKeysAux fuel (vs.filter fun x => decide (x ≠ v))

/-- Keys of `byte_counts` in insertion order. -/
def firstKeys (vals : List Nat) : List Nat :=
  firstKeysAux vals.length vals

/-- `max(byte_counts, key=byte_counts.get)`: the first key, in dict
insertion order, whose count is maximal (Python's `max` keeps the
earlier item on ties).  Returns 0 for an empty count table, matching the
`else` branch that stores 0. -/
def maxByCount (vals : List Nat) : Nat :=
  match firstKeys vals with
  | [] => 0
  | k :: ks => ks.foldl (fun best k2 => if vals.count k2 > vals.count best then k2 else best) k

/-- The per-position vote of `_majority_vote`: collect `block[i]` from
every copy that is long enough (`if i < len(block)`), then pick the
most frequent value. -/
def voteAt (blocks : List (List Nat)) (i : Nat) : Nat :=
  maxByCount (blocks.filterMap fun b => b.get? i)

/-- `_majority_vote`: `b''` on no copies, else one voted byte for each
position of the first copy. -/
def majorityVote (blocks : List (List Nat)) : List Nat :=
  match blocks with
  | [] => []
  | b0 :: _ => (List.range b0.length).map (voteAt blocks)

/-- `_repetition_decode`: group the encoded blocks `fec_level` at a time
and majority-vote each group.  `range(0, n, 0)` raises `ValueError` in
Python when `fec_level = 0` and the block list is non-empty; that
exception is modelled as `Except.error` (it is caught by `decode`). -/
def repetitionDecode (level : Nat) (blocks : List (List Nat)) :
    Except String (List (List Nat)) :=
  if blocks = [] then .ok []
  else if level = 0 then .error ("range() arg 3 must not be zero")
  else .ok ((chunkList level blocks).map majorityVote)

/-- `_xor_decode`: drop the `fec_level` parity blocks; `[]` when no data
blocks remain. -/
def xorDecode (level : Nat) (blocks : List (List Nat)) : List (List Nat) :=
  if blocks = [] then []
  else if blocks.length ≤ level then []
  else blocks.take (blocks.length - level)

/-- `_recover_from_fec`, restricted to the two supported strategies. -/
def recoverFromFec (cfg : BCConfig) (blocks : List (List Nat)) :
    Except String (List (List Nat)) :=
  match cfg.fecStrategy with
  | .repetition => repetitionDecode cfg.fecLevel blocks
  | .xor => .ok (xorDecode cfg.fecLevel blocks)

/-- `_assemble_from_blocks`: concatenate and truncate to the recorded
original size. -/
def assembleFromBlocks (blocks : List (List Nat)) (originalSize : Nat) : List Nat :=
  blocks.flatten.take originalSize

/-- The body of `BlockCodec.decode`'s `try` block; a raised Python
exception is an `Except.error`, and `None` results are `.ok none`. -/
def decodeE (cfg : BCConfig) (data : List Nat) (tag : CodecTag) :
    Except String (Option (List Nat)) :=
  match parseFrameMarker data tag with
  | none => .ok none
  | some (originalSize, frameEnd) => do
    let encodedBlocks := parseEncodedBlocks (data.drop frameEnd)
    let blocks ← recoverFromFec cfg encodedBlocks
    .ok (some (assembleFromBlocks blocks originalSize))

/-- `BlockCodec.decode`: the catch-all `except` turns any exception into
`None`. -/
def decode (cfg : BCConfig) (data : List Nat) (tag : CodecTag) : Option (List Nat) :=
  match decodeE cfg data tag with
  | .ok r => r
  | .error _ => none

/-! ## Modem (src/digital_communication_system/py5g_phy_comm/modulation.py)

The source works with floating-point complex symbols: `_map_bits_to_symbol`
computes integer coordinates and divides by `normalization` (√2, √10, √42
or √170), and `_symbol_to_bits_hard` multiplies the real/imaginary parts
back by `normalization` before comparing against integer thresholds.
Because `normalization` is a fixed positive real, we carry each symbol by
its normalization-scaled coordinates `(symbol.real · normalization,
symbol.imag · normalization) ∈ ℤ × ℤ`, which the source's arithmetic makes
exactly the integers computed from the bits.  Every comparison the source
performs is either on those scaled values directly (`scaled_real`) or is a
sign test, which the positive scaling preserves; the squared magnitude of
the true symbol is `(re² + im²) / normalization²` with
`normalization² ∈ ℕ`, kept exact in `ℚ`. -/

/-- The supported modulation types. -/
inductive ModScheme where
  | bpsk
  | pi2bpsk
  | qpsk
  | qam16
  | qam64
  | qam256
deriving DecidableEq, Repr

/-- `bits_per_symbol` of `_setup_modulation_params`. -/
def bitsPerSymbol : ModScheme → Nat
  | .bpsk => 1
  | .pi2bpsk => 1
  | .qpsk => 2
  | .qam16 => 4
  | .qam64 => 6
  | .qam256 => 8

/-- The square of the `normalization` constant of
`_setup_modulation_params` (the source stores `np.sqrt` of these). -/
def normalizationSq : ModScheme → Nat
  | .bpsk => 2
  | .pi2bpsk => 2
  | .qpsk => 2
  | .qam16 => 10
  | .qam64 => 42
  | .qam256 => 170

/-- `_map_bits_to_symbol`, producing the normalization-scaled integer
coordinates (see the section comment).  `draw` models the
`np.random.rand() > 0.5` coin flip of the `pi/2-bpsk` branch
(`true` = the real-axis branch); the other schemes ignore it. -/
def mapBitsToSymbol (s : ModScheme) (draw : Bool) (bits : List Nat) : Int × Int :=
  let bit : Nat → Int := fun i => 1 - 2 * (bits.getD i 0 : Int)
  match s with
  | .bpsk => (bit 0, 0)
  | .pi2bpsk => if draw then (bit 0, 0) else (0, bit 0)
  | .qpsk => (bit 0, bit 1)
  | .qam16 => (bit 0 * (2 - bit 2), bit 1 * (2 - bit 3))
  | .qam64 =>
    (bit 0 * (4 - bit 2 * (2 - bit 4)), bit 1 * (4 - bit 3 * (2 - bit 5)))
  | .qam256 =>
    (bit 0 * (8 - bit 2 * (4 - bit 4 * (2 - bit 6))),
     bit 1 * (8 - bit 3 * (4 - bit 5 * (2 - bit 7))))

/-- `Modem.modulate`: `ValueError` (here `none`) unless the bit count is
a multiple of `bits_per_symbol`; otherwise map each consecutive chunk.
`draw` supplies the per-symbol random draw consumed by `pi/2-bpsk`. -/
def modulate (s : ModScheme) (draw : Nat → Bool) (bits : List Nat) :
    Option (List (Int × Int)) :=
  if bits.length % bitsPerSymbol s = 0 then
    some ((chunkList (bitsPerSymbol s) bits).enum.map fun p =>
      mapBitsToSymbol s (draw p.1) p.2)
  else none

/-- `_symbol_to_bits_hard` on the scaled coordinates: `scaled_real` and
`scaled_imag` of the source are exactly `sym.1` and `sym.2`, and the
BPSK/QPSK sign tests on the unscaled values have the same truth value. -/
def symbolToBitsHard (s : ModScheme) (sym : Int × Int) : List Nat :=
  let re := sym.1
  let im := sym.2
  match s with
  | .bpsk | .pi2bpsk => if re > 0 then [0] else [1]
  | .qpsk => [if re > 0 then 0 else 1, if im > 0 then 0 else 1]
  | .qam16 =>
    [if re > 0 then 0 else 1, if im > 0 then 0 else 1,
     if |re| < 2 then 0 else 1, if |im| < 2 then 0 else 1]
  | .qam64 =>
    [if re > 0 then 0 else 1, if im > 0 then 0 else 1,
     if |re| < 4 then 0 else 1, if |im| < 4 then 0 else 1,
     if |re| > 2 ∧ |re| < 6 then 0 else 1, if |im| > 2 ∧ |im| < 6 then 0 else 1]
  | .qam256 =>
    [if re > 0 then 0 else 1, if im > 0 then 0 else 1,
     if |re| < 8 then 0 else 1, if |im| < 8 then 0 else 1,
     if |re| < 4 then 0 else 1, if |im| < 4 then 0 else 1,
     if |re| < 2 then 0 else 1, if |im| < 2 then 0 else 1]

/-- `_hard_demodulate`: concatenate the per-symbol hard decisions. -/
def hardDemodulate (s : ModScheme) (syms : List (Int × Int)) : List Nat :=
  (syms.map (symbolToBitsHard s)).flatten

/-- All `2^k` bit patterns of length `k`, in the order
`_generate_constellation` enumerates them (`dec2bitarray i k` for
`i = 0 .. 2^k - 1`, most significant bit first). -/
def allBitLists : Nat → List (List Nat)
  | 0 => [[]]
  | n + 1 => (allBitLists n).map (fun l => 0 :: l) ++ (allBitLists n).map (fun l => 1 :: l)

/-- Squared magnitude of the true (normalized) symbol:
`(re² + im²) / normalization²`, exact in `ℚ`. -/
def symbolEnergy (s : ModScheme) (sym : Int × Int) : ℚ :=
  ((sym.1 ^ 2 + sym.2 ^ 2 : Int) : ℚ) / (normalizationSq s : ℚ)

/-- Mean of `|symbol|²` over the constellation generated by
`_generate_constellation` (one random draw per point for `pi/2-bpsk`). -/
def meanSymbolPower (s : ModScheme) (draw : Nat → Bool) : ℚ :=
  ((allBitLists (bitsPerSymbol s)).enum.map fun p =>
    symbolEnergy s (mapBitsToSymbol s (draw p.1) p.2)).sum /
    ((allBitLists (bitsPerSymbol s)).length : ℚ)

/-- Bit sequences are lists of 0/1 integers. -/
def isBitList (l : List Nat) : Prop :=
  ∀ b ∈ l, b = 0 ∨ b = 1

instance (l : List Nat) : Decidable (isBitList l) := by
  unfold isBitList; infer_instance

/-! ## OFDM framing (src/digital_communication_system/py5g_phy_comm/transmitter.py)

`Transmitter.ofdm_modulate` pads the symbol stream to a multiple of
`nsc`, reshapes it into groups of `nsc` symbols and scatters each group
over `nfft` frequency bins before the IFFT.  The claims concern the
bin-mapping step, which is exact index bookkeeping; symbol values are
carried as exact pairs `ℚ × ℚ` standing for the complex entries. -/

/-- A complex symbol value, exactly. -/
abbrev Cpx := ℚ × ℚ

/-- The zero-padding step of `ofdm_modulate`: extend to
`ceil(len/nsc) * nsc` entries with zeros (`np.pad` with constant 0). -/
def ofdmPadded (nsc : Nat) (symbols : List Cpx) : List Cpx :=
  symbols ++ List.replicate ((symbols.length + nsc - 1) / nsc * nsc - symbols.length) ((0 : ℚ), (0 : ℚ))

/-- The reshape into rows of `nsc` symbols (one row per OFDM symbol). -/
def ofdmGroups (nsc : Nat) (symbols : List Cpx) : List (List Cpx) :=
  chunkList nsc (ofdmPadded nsc symbols)

/-- The frequency-bin assignment of `ofdm_modulate` for one group `g` of
`nsc` symbols:

    ofdm_sym_freq[:, 1:(nsc // 2) + 1] = symbols_matrix[:, nsc // 2:]
    ofdm_sym_freq[:, -(nsc // 2):]     = symbols_matrix[:, :nsc // 2]

Row entries start at 0 (`np.zeros`); the second assignment overwrites the
first wherever the two slices overlap, which the branch order reflects.
Meaningful for `2 ≤ nsc` (for `nsc < 2` the numpy assignments themselves
fail on shape mismatch or degenerate slices). -/
def ofdmFreqBins (nfft nsc : Nat) (g : List Cpx) : List Cpx :=
  (List.range nfft).map fun k =>
    if nfft - nsc / 2 ≤ k then g.getD (k - (nfft - nsc / 2)) ((0 : ℚ), (0 : ℚ))
    else if 1 ≤ k ∧ k ≤ nsc / 2 then g.getD (nsc / 2 + (k - 1)) ((0 : ℚ), (0 : ℚ))
    else ((0 : ℚ), (0 : ℚ))

/-! ## JPEG2000BGR resilient decoder
(src/image_recover/baseline/jpeg2000bgr/jpeg2000bgr_decoder.py)

PIL image objects and their pixel inspection are external collaborators
(the spec treats image codecs as opaque), so they appear as an abstract
image type `Img` with oracle functions; all byte-level processing is
modelled from the source.  `decode_image` is modelled for
`return_type='pil'` (the `'numpy'` variant only changes the channel
order of the returned buffer, not the dimensions or the ratio). -/

/-- The external PIL-backed operations used by `decode_image`:
`_try_open_jpeg2000`, the `convert('RGB')` normalization (identity when
the mode is already RGB), the `calculate_recovery_ratio` closure and the
`fix_image` closure. -/
structure DecoderExt (Img : Type) where
  tryOpen : List Nat → Option Img
  toRGB : Img → Img
  recoveryOf : Img → Nat × Nat → ℚ
  fixImage : Img → Nat × Nat → Img

/-- Result of `decode_image`: a decoded PIL image, or the flat
(128,128,128) gray placeholder of the stated size built by the final
fallback. -/
inductive DecodedImage (Img : Type) where
  | real (img : Img)
  | grayPlaceholder (size : Nat × Nat)
deriving DecidableEq

/-- Frame kinds recognized by `_detect_frame_type`. -/
inductive FrameKind where
  | blockB
  | legacyB
  | unknown
deriving DecidableEq, Repr

/-- `_detect_frame_type`: dispatch on the leading 4 bytes `BLKB`
(66,76,75,66) or `JP2B` (74,80,50,66); anything else is
`('unknown', 0, data)`. -/
def detectFrameType (data : List Nat) : FrameKind × Nat × List Nat :=
  if data.take 4 = [66, 76, 75, 66] then
    (.blockB, fromBe32 ((data.drop 4).take 4), data.drop 8)
  else if data.take 4 = [74, 80, 50, 66] then
    (.legacyB, fromBe32 ((data.drop 4).take 4), data.drop 8)
  else (.unknown, 0, data)

/-- The per-group vote of `_simple_repeat_decode`:
`max(set(block), key=block.count)`.  CPython iterates the set of byte
values in an order its spec leaves open; we take ascending numeric order
(byte values hash to themselves), with Python's `max` keeping the
earlier value on ties.  No verified claim depends on this choice. -/
def setVote (c : List Nat) : Nat :=
  match (List.range 256).filter (fun v => decide (v ∈ c)) with
  | [] => 0
  | k :: ks => ks.foldl (fun best k2 => if c.count k2 > c.count best then k2 else best) k

/-- `_simple_repeat_decode`: identity for `repeat ≤ 1`; otherwise vote
each full group of `repeat` bytes down to one byte and append any
shorter trailing group unchanged. -/
def simpleRepeatDecode (data : List Nat) (rep : Nat) : List Nat :=
  if rep ≤ 1 then data
  else ((chunkList rep data).map fun c =>
    if c.length = rep then [setVote c] else c).flatten

/-- `_decode_block_data`: try `BlockCodec.decode`; on a falsy result
(`None` or `b''`) fall back to the fixed 4×-header / 2×-body repeat
layout, then truncate to `expected_size` when that is non-zero. -/
def decodeBlockData (cfg : BCConfig) (data : List Nat) (expectedSize : Nat) : List Nat :=
  let decoded := decode cfg data .jpeg2000bgr
  match decoded with
  | some jd =>
    if jd ≠ [] then jd else decodeBlockFallback data expectedSize
  | none => decodeBlockFallback data expectedSize
where
  /-- The `else` arm of `_decode_block_data` (simple repeat decoding). -/
  decodeBlockFallback (data : List Nat) (expectedSize : Nat) : List Nat :=
    let headerSize := if expectedSize > 100 then 100 else expectedSize
    let bodySize := if expectedSize > 100 then expectedSize - 100 else 0
    let encHeader := headerSize * 4
    let encBody := if bodySize > 0 then bodySize * 2 else 0
    let result :=
      if encHeader + encBody ≤ data.length then
        let remaining := data.drop encHeader
        if encBody > 0 ∧ encBody ≤ remaining.length then
          simpleRepeatDecode (data.take encHeader) 4 ++
            simpleRepeatDecode (remaining.take encBody) 2
        else
          simpleRepeatDecode (data.take encHeader) 4 ++ remaining
      else simpleRepeatDecode data 3
    if expectedSize ≠ 0 ∧ result.length > expectedSize then result.take expectedSize
    else result

/-- `_decode_legacy_data`: 2×-repeated header, body kept as is, then
truncation to `expected_size` when non-zero. -/
def decodeLegacyData (data : List Nat) (expectedSize : Nat) : List Nat :=
  let headerSize := if expectedSize > 100 then 100 else expectedSize
  let bodySize := if expectedSize > 100 then expectedSize - 100 else 0
  let encHeader := headerSize * 2
  let encBody := bodySize
  let result :=
    if encHeader + encBody ≤ data.length then
      let remaining := data.drop encHeader
      if encBody > 0 ∧ encBody ≤ remaining.length then
        simpleRepeatDecode (data.take encHeader) 2 ++ remaining.take encBody
      else
        simpleRepeatDecode (data.take encHeader) 2 ++ remaining
    else data
  if expectedSize ≠ 0 ∧ result.length > expectedSize then result.take expectedSize
  else result

/-- `JPEG2000BGRDecoder.decode_image` (`return_type='pil'`): dispatch on
the detected frame kind; each successful path returns the fixed image
and its recovery ratio, every failed path falls through to the flat gray
placeholder of `default_size` with ratio 0.  `cfg` is the decoder's
`BlockCodec` configuration (the source constructs `BlockCodec()` with
its defaults). -/
def decodeImage {Img : Type} (ext : DecoderExt Img) (useBlockCodec : Bool)
    (cfg : BCConfig) (data : List Nat) (defaultSize : Nat × Nat) :
    DecodedImage Img × ℚ :=
  let placeholder : DecodedImage Img × ℚ := (.grayPlaceholder defaultSize, 0)
  let opened : List Nat → DecodedImage Img × ℚ := fun jd =>
    match ext.tryOpen jd with
    | some img =>
      let rgb := ext.toRGB img
      (.real (ext.fixImage rgb defaultSize), ext.recoveryOf rgb defaultSize)
    | none => placeholder
  match detectFrameType data with
  | (.blockB, originalSize, frameData) =>
    if useBlockCodec then
      match decode cfg data .jpeg2000bgr with
      | some jd =>
        if jd ≠ [] then
          match ext.tryOpen jd with
          | some img =>
            let rgb := ext.toRGB img
            (.real (ext.fixImage rgb defaultSize), ext.recoveryOf rgb defaultSize)
          | none =>
            let jd2 := decodeBlockData cfg frameData originalSize
            if jd2 ≠ [] then opened jd2 else placeholder
        else placeholder
      | none => placeholder
    else placeholder
  | (.legacyB, originalSize, frameData) =>
    let jd := decodeLegacyData frameData originalSize
    if jd ≠ [] then opened jd else placeholder
  | (.unknown, _, _) => placeholder

/-! ## Helper lemmas: chunking -/

theorem chunkAux_nil {α : Type _} (s f : Nat) : chunkAux s f ([] : List α) = [] := by
  cases f <;> rfl

theorem chunkAux_fuel {α : Type _} (s : Nat) :
    ∀ (f₁ f₂ : Nat) (l : List α), l.length ≤ f₁ → l.length ≤ f₂ →
      chunkAux s f₁ l = chunkAux s f₂ l := by
  intro f₁
  induction f₁ with
  | zero =>
    intro f₂ l h₁ _
    have : l = [] := List.eq_nil_of_length_eq_zero (Nat.le_zero.mp h₁)
    subst this
    rw [chunkAux_nil, chunkAux_nil]
  | succ f ih =>
    intro f₂ l h₁ h₂
    cases l with
    | nil => rw [chunkAux_nil, chunkAux_nil]
    | cons a t =>
      cases f₂ with
      | zero => simp at h₂
      | succ f₂ =>
        show ((a :: t).take s) :: chunkAux s f (t.drop (s - 1)) =
          ((a :: t).take s) :: chunkAux s f₂ (t.drop (s - 1))
        have hd : (t.drop (s - 1)).length ≤ t.length := by
          rw [List.length_drop]; omega
        simp only [List.length_cons] at h₁ h₂
        rw [ih f₂ (t.drop (s - 1)) (by omega) (by omega)]

theorem chunkList_nil {α : Type _} (s : Nat) : chunkList s ([] : List α) = [] := rfl

theorem chunkList_cons {α : Type _} (s : Nat) (hs : 1 ≤ s) (l : List α) (hl : l ≠ []) :
    chunkList s l = l.take s :: chunkList s (l.drop s) := by
  cases l with
  | nil => exact absurd rfl hl
  | cons a t =>
    cases s with
    | zero => omega
    | succ s =>
      show chunkAux (s + 1) (t.length + 1) (a :: t) = _
      have step : chunkAux (s + 1) (t.length + 1) (a :: t) =
          ((a :: t).take (s + 1)) :: chunkAux (s + 1) t.length (t.drop (s + 1 - 1)) := rfl
      rw [step]
      have hdrop : (a :: t).drop (s + 1) = t.drop (s + 1 - 1) := by
        simp [List.drop_succ_cons]
      rw [chunkList, hdrop]
      rw [chunkAux_fuel (s + 1) t.length (t.drop (s + 1 - 1)).length (t.drop (s + 1 - 1))
        (by rw [List.length_drop]; omega) le_rfl]

theorem flatten_chunkList {α : Type _} (s : Nat) (hs : 1 ≤ s) (l : List α) :
    (chunkList s l).flatten = l := by
  by_cases hl : l = []
  · subst hl; rfl
  · rw [chunkList_cons s hs l hl, List.flatten_cons,
      flatten_chunkList s hs (l.drop s), List.take_append_drop]
termination_by l.length
decreasing_by
  have := List.length_pos.mpr hl
  rw [List.length_drop]; omega

theorem chunkList_length_le {α : Type _} (s : Nat) (hs : 1 ≤ s) (l : List α) :
    ∀ c ∈ chunkList s l, c.length ≤ s := by
  by_cases hl : l = []
  · subst hl; intro c hc; simp [chunkList_nil] at hc
  · rw [chunkList_cons s hs l hl]
    intro c hc
    rcases List.mem_cons.mp hc with rfl | hc
    · rw [List.length_take]; omega
    · exact chunkList_length_le s hs (l.drop s) c hc
termination_by l.length
decreasing_by
  have := List.length_pos.mpr hl
  rw [List.length_drop]; omega

theorem chunkList_length_dvd {α : Type _} (s : Nat) (hs : 1 ≤ s) (l : List α)
    (hdvd : s ∣ l.length) : ∀ c ∈ chunkList s l, c.length = s := by
  by_cases hl : l = []
  · subst hl; intro c hc; simp [chunkList_nil] at hc
  · have hpos := List.length_pos.mpr hl
    have hsl : s ≤ l.length := Nat.le_of_dvd hpos hdvd
    rw [chunkList_cons s hs l hl]
    intro c hc
    rcases List.mem_cons.mp hc with rfl | hc
    · rw [List.length_take]; omega
    · refine chunkList_length_dvd s hs (l.drop s) ?_ c hc
      rw [List.length_drop]
      exact (Nat.dvd_sub' hdvd dvd_rfl)
termination_by l.length
decreasing_by
  have := List.length_pos.mpr hl
  rw [List.length_drop]; omega

theorem chunkList_subset {α : Type _} (s : Nat) (hs : 1 ≤ s) (l : List α) :
    ∀ c ∈ chunkList s l, ∀ x ∈ c, x ∈ l := by
  by_cases hl : l = []
  · subst hl; intro c hc; simp [chunkList_nil] at hc
  · rw [chunkList_cons s hs l hl]
    intro c hc x hx
    rcases List.mem_cons.mp hc with rfl | hc
    · exact List.take_subset s l hx
    · exact List.drop_subset s l (chunkList_subset s hs (l.drop s) c hc x hx)
termination_by l.length
decreasing_by
  have := List.length_pos.mpr hl
  rw [List.length_drop]; omega

theorem chunkList_flatten_of_length {α : Type _} (s : Nat) (hs : 1 ≤ s)
    (cl : List (List α)) (h : ∀ c ∈ cl, c.length = s) :
    chunkList s cl.flatten = cl := by
  induction cl with
  | nil => rfl
  | cons c cl ih =>
    have hc : c.length = s := h c (List.mem_cons_self c cl)
    have hcne : (c :: cl).flatten ≠ [] := by
      rw [List.flatten_cons]
      intro habs
      have hc0 : c = [] := (List.append_eq_nil.mp habs).1
      rw [hc0] at hc
      simp at hc
      omega
    rw [List.flatten_cons, chunkList_cons s hs _ (by rw [← List.flatten_cons]; exact hcne)]
    congr 1
    · rw [← hc, List.take_left]
    · rw [show (c ++ cl.flatten).drop s = cl.flatten from by rw [← hc, List.drop_left]]
      exact ih (fun c hmem => h c (List.mem_cons_of_mem _ hmem))

/-! ## Helper lemmas: block splitting -/

theorem splitIntoBlocks_length (bs : Nat) (hbs : 1 ≤ bs) (data : List Nat) :
    ∀ b ∈ splitIntoBlocks bs data, b.length = bs := by
  intro b hb
  rcases List.mem_map.mp hb with ⟨c, hc, rfl⟩
  have hle := chunkList_length_le bs hbs data c hc
  rw [List.length_append, List.length_replicate]
  omega

theorem take_flatten_splitIntoBlocks (bs : Nat) (hbs : 1 ≤ bs) (data : List Nat) :
    (splitIntoBlocks bs data).flatten.take data.length = data := by
  by_cases hl : data = []
  · subst hl; rfl
  · rw [splitIntoBlocks, chunkList_cons bs hbs data hl]
    rw [List.map_cons, List.flatten_cons]
    by_cases hble : data.length ≤ bs
    · have htake : data.take bs = data := List.take_of_length_le hble
      have hdrop : data.drop bs = [] := List.drop_eq_nil_of_le hble
      rw [htake, hdrop, chunkList_nil]
      simp only [List.map_nil, List.flatten_nil, List.append_nil]
      rw [List.take_append_of_le_length le_rfl, List.take_length]
    · have hlen : (data.take bs).length = bs := by
        rw [List.length_take]; omega
      have hpad : bs - (data.take bs).length = 0 := by omega
      rw [hpad, List.replicate_zero, List.append_nil]
      have hsplit : data.length = (data.take bs).length + (data.length - bs) := by
        rw [hlen]; omega
      rw [hsplit, List.take_append]
      have ih := take_flatten_splitIntoBlocks bs hbs (data.drop bs)
      rw [List.length_drop] at ih
      rw [← splitIntoBlocks, ih]
      exact List.take_append_drop bs data
termination_by data.length
decreasing_by
  have := List.length_pos.mpr hl
  rw [List.length_drop]; omega

/-! ## Helper lemmas: majority vote -/

theorem firstKeysAux_nil (f : Nat) : firstKeysAux f [] = [] := by
  cases f <;> rfl

theorem firstKeysAux_fuel :
    ∀ (f₁ f₂ : Nat) (l : List Nat), l.length ≤ f₁ → l.length ≤ f₂ →
      firstKeysAux f₁ l = firstKeysAux f₂ l := by
  intro f₁
  induction f₁ with
  | zero =>
    intro f₂ l h₁ _
    have : l = [] := List.eq_nil_of_length_eq_zero (Nat.le_zero.mp h₁)
    subst this
    rw [firstKeysAux_nil, firstKeysAux_nil]
  | succ f ih =>
    intro f₂ l h₁ h₂
    cases l with
    | nil => rw [firstKeysAux_nil, firstKeysAux_nil]
    | cons v vs =>
      cases f₂ with
      | zero => simp at h₂
      | succ f₂ =>
        show v :: firstKeysAux f (vs.filter fun x => decide (x ≠ v)) =
          v :: firstKeysAux f₂ (vs.filter fun x => decide (x ≠ v))
        have hf := List.length_filter_le (fun x => decide (x ≠ v)) vs
        simp only [List.length_cons] at h₁ h₂
        rw [ih f₂ _ (by omega) (by omega)]

theorem firstKeys_cons (v : Nat) (vs : List Nat) :
    firstKeys (v :: vs) = v :: firstKeys (vs.filter fun x => decide (x ≠ v)) := by
  show firstKeysAux (vs.length + 1) (v :: vs) = _
  rw [show firstKeysAux (vs.length + 1) (v :: vs) =
    v :: firstKeysAux vs.length (vs.filter fun x => decide (x ≠ v)) from rfl]
  rw [firstKeys, firstKeysAux_fuel vs.length (vs.filter fun x => decide (x ≠ v)).length _
    (List.length_filter_le _ vs) le_rfl]

theorem mem_firstKeys (x : Nat) (l : List Nat) : x ∈ firstKeys l ↔ x ∈ l := by
  match l with
  | [] => rfl
  | v :: vs =>
    rw [firstKeys_cons]
    constructor
    · intro hx
      rcases List.mem_cons.mp hx with rfl | hx
      · exact List.mem_cons_self _ _
      · have := (mem_firstKeys x _).mp hx
        exact List.mem_cons_of_mem v (List.mem_filter.mp this).1
    · intro hx
      rcases List.mem_cons.mp hx with rfl | hx
      · exact List.mem_cons_self _ _
      · by_cases hxv : x = v
        · subst hxv; exact List.mem_cons_self _ _
        · refine List.mem_cons_of_mem v ((mem_firstKeys x _).mpr ?_)
          exact List.mem_filter.mpr ⟨hx, by simp [hxv]⟩
termination_by l.length
decreasing_by
  all_goals
    have hf := List.length_filter_le (fun x => decide (x ≠ v)) vs
    rw [List.length_cons]
    omega

theorem voteFold_mem (vals : List Nat) (b : Nat) (ks : List Nat) :
    ks.foldl (fun best k2 => if vals.count k2 > vals.count best then k2 else best) b ∈ b :: ks := by
  induction ks generalizing b with
  | nil => exact List.mem_cons_self b []
  | cons k ks ih =>
    by_cases hc : vals.count k > vals.count b
    · rw [List.foldl_cons, if_pos hc]
      exact List.mem_cons_of_mem b (ih k)
    · rw [List.foldl_cons, if_neg hc]
      rcases List.mem_cons.mp (ih b) with h | h
      · rw [h]; exact List.mem_cons_self b _
      · exact List.mem_cons_of_mem b (List.mem_cons_of_mem k h)

theorem voteFold_count_ge (vals : List Nat) (b : Nat) (ks : List Nat) :
    vals.count b ≤
      vals.count (ks.foldl (fun best k2 => if vals.count k2 > vals.count best then k2 else best) b) ∧
    ∀ k ∈ ks, vals.count k ≤
      vals.count (ks.foldl (fun best k2 => if vals.count k2 > vals.count best then k2 else best) b) := by
  induction ks generalizing b with
  | nil => exact ⟨le_rfl, by intro k hk; simp at hk⟩
  | cons k ks ih =>
    have step : (k :: ks).foldl
        (fun best k2 => if vals.count k2 > vals.count best then k2 else best) b =
        ks.foldl (fun best k2 => if vals.count k2 > vals.count best then k2 else best)
          (if vals.count k > vals.count b then k else b) := rfl
    rw [step]
    rcases ih (if vals.count k > vals.count b then k else b) with ⟨h1, h2⟩
    have hbase : vals.count b ≤ vals.count (if vals.count k > vals.count b then k else b) := by
      by_cases hc : vals.count k > vals.count b
      · rw [if_pos hc]; omega
      · rw [if_neg hc]
    have hk : vals.count k ≤ vals.count (if vals.count k > vals.count b then k else b) := by
      by_cases hc : vals.count k > vals.count b
      · rw [if_pos hc]
      · rw [if_neg hc]; omega
    refine ⟨le_trans hbase h1, ?_⟩
    intro k2 hk2
    rcases List.mem_cons.mp hk2 with rfl | hk2
    · exact le_trans hk h1
    · exact h2 k2 hk2

theorem maxByCount_mem (vals : List Nat) (h : vals ≠ []) : maxByCount vals ∈ vals := by
  match hk : firstKeys vals with
  | [] =>
    exfalso
    rcases List.exists_cons_of_ne_nil h with ⟨v, vs, rfl⟩
    rw [firstKeys_cons] at hk
    exact List.cons_ne_nil _ _ hk
  | k :: ks =>
    have : maxByCount vals ∈ k :: ks := by
      rw [maxByCount, hk]
      exact voteFold_mem vals k ks
    rw [← hk] at this
    exact (mem_firstKeys _ vals).mp this

theorem count_le_maxByCount (vals : List Nat) (v : Nat) (hv : v ∈ vals) :
    vals.count v ≤ vals.count (maxByCount vals) := by
  have hvk : v ∈ firstKeys vals := (mem_firstKeys v vals).mpr hv
  match hk : firstKeys vals with
  | [] => rw [hk] at hvk; simp at hvk
  | k :: ks =>
    rw [hk] at hvk
    have hfold := voteFold_count_ge vals k ks
    rw [maxByCount, hk]
    rcases List.mem_cons.mp hvk with rfl | hvk
    · exact hfold.1
    · exact hfold.2 v hvk

theorem maxByCount_of_strict (vals : List Nat) (o : Nat) (ho : o ∈ vals)
    (h : ∀ v ∈ vals, v ≠ o → vals.count v < vals.count o) : maxByCount vals = o := by
  have hne : vals ≠ [] := by rintro rfl; simp at ho
  have hmem := maxByCount_mem vals hne
  by_contra hno
  have h1 := h (maxByCount vals) hmem hno
  have h2 := count_le_maxByCount vals o ho
  omega

theorem filterMap_getElem (copies : List (List Nat)) (i : Nat)
    (h : ∀ c ∈ copies, i < c.length) :
    copies.filterMap (fun b => b.get? i) = copies.map (fun c => c.getD i 0) := by
  induction copies with
  | nil => rfl
  | cons c cs ih =>
    have hc : i < c.length := h c (List.mem_cons_self c cs)
    rw [List.filterMap_cons, List.map_cons]
    have : c.get? i = some (c.getD i 0) := by
      rw [List.get?_eq_getElem?, List.getElem?_eq_getElem hc, List.getD_eq_getElem c 0 hc]
    rw [this]
    exact congrArg _ (ih fun c hc => h c (List.mem_cons_of_mem _ hc))

theorem firstKeys_replicate (n v : Nat) :
    firstKeys (List.replicate n v) = if n = 0 then [] else [v] := by
  cases n with
  | zero => rfl
  | succ n =>
    rw [List.replicate_succ, firstKeys_cons, List.filter_replicate]
    simp
    rfl

theorem maxByCount_replicate (n v : Nat) (hn : 1 ≤ n) :
    maxByCount (List.replicate n v) = v := by
  rw [maxByCount, firstKeys_replicate]
  rw [if_neg (by omega)]
  rfl

theorem majorityVote_replicate (L : Nat) (hL : 1 ≤ L) (b : List Nat) :
    majorityVote (List.replicate L b) = b := by
  cases L with
  | zero => omega
  | succ n =>
    rw [List.replicate_succ, majorityVote]
    refine List.ext_getElem ?_ ?_
    · simp
    · intro i h1 h2
      rw [List.getElem_map, List.getElem_range]
      have hib : i < b.length := by simpa using h1
      rw [voteAt, ← List.replicate_succ]
      rw [filterMap_getElem _ i (by intro c hc; rw [List.eq_of_mem_replicate hc]; exact hib)]
      rw [List.map_replicate, maxByCount_replicate _ _ (by omega)]
      exact List.getD_eq_getElem b 0 hib

theorem majorityVote_of_corrupt (orig : List Nat) (copies : List (List Nat))
    (hne : copies ≠ [])
    (hlen : ∀ c ∈ copies, c.length = orig.length)
    (hcorr : 2 * (copies.filter fun c => decide (c ≠ orig)).length < copies.length) :
    majorityVote copies = orig := by
  rcases List.exists_cons_of_ne_nil hne with ⟨c0, cs, rfl⟩
  have hc0 : c0.length = orig.length := hlen c0 (List.mem_cons_self c0 cs)
  rw [majorityVote]
  refine List.ext_getElem (by simp [hc0]) ?_
  intro i h1 h2
  rw [List.getElem_map, List.getElem_range]
  have hio : i < orig.length := h2
  rw [voteAt, filterMap_getElem _ i (fun c hc => by rw [hlen c hc]; exact hio)]
  have hfilter : ((c0 :: cs).filter fun c => decide (c ≠ orig)).length =
      (c0 :: cs).countP (fun c => decide (c ≠ orig)) :=
    (List.countP_eq_length_filter _ _).symm
  have hsplit : (c0 :: cs).length = (c0 :: cs).countP (fun c => decide (c = orig)) +
      (c0 :: cs).countP (fun c => decide (c ≠ orig)) := by
    have h := List.length_eq_countP_add_countP (fun c : List Nat => decide (c = orig)) (c0 :: cs)
    have heq : (fun a : List Nat => decide ¬(decide (a = orig) = true)) =
        (fun c : List Nat => decide (c ≠ orig)) := by
      funext a; simp
    rw [h, heq]
  have hmapcount : ∀ v : Nat, ((c0 :: cs).map fun c => c.getD i 0).count v =
      (c0 :: cs).countP fun c => decide (c.getD i 0 = v) := by
    intro v
    rw [List.count_eq_countP, List.countP_map]
    refine List.countP_congr ?_
    intro c _
    simp [Function.comp]
  have hcount_o : (c0 :: cs).countP (fun c => decide (c = orig)) ≤
      ((c0 :: cs).map fun c => c.getD i 0).count (orig.getD i 0) := by
    rw [hmapcount]
    refine List.countP_mono_left ?_
    intro c _ hc
    have : c = orig := by simpa using hc
    subst this
    simp
  have hcount_v : ∀ v : Nat, v ≠ orig.getD i 0 →
      ((c0 :: cs).map fun c => c.getD i 0).count v ≤
        (c0 :: cs).countP (fun c => decide (c ≠ orig)) := by
    intro v hv
    rw [hmapcount]
    refine List.countP_mono_left ?_
    intro c _ hc
    have hcv : c.getD i 0 = v := by simpa using hc
    simp only [decide_eq_true_eq]
    intro habs
    rw [habs] at hcv
    exact hv hcv.symm
  rw [hfilter] at hcorr
  have hoin : orig.getD i 0 ∈ (c0 :: cs).map fun c => c.getD i 0 := by
    have : 0 < ((c0 :: cs).map fun c => c.getD i 0).count (orig.getD i 0) := by omega
    exact List.count_pos_iff.mp this
  have hmax := maxByCount_of_strict ((c0 :: cs).map fun c => c.getD i 0) (orig.getD i 0) hoin ?_
  · rw [hmax]
    exact List.getD_eq_getElem orig 0 hio
  · intro v hvmem hvne
    have h1 := hcount_v v hvne
    omega

theorem maxByCount_rep_app (x y a b : Nat) (hxy : x ≠ y) (hb : b ≤ a + 1) :
    maxByCount (List.replicate (a + 1) x ++ List.replicate b y) = x := by
  have hkeys : firstKeys (List.replicate (a + 1) x ++ List.replicate b y) =
      x :: firstKeys (List.replicate b y) := by
    rw [List.replicate_succ, List.cons_append, firstKeys_cons, List.filter_append,
      List.filter_replicate, List.filter_replicate]
    simp [hxy, Ne.symm hxy]
  have hcx : (List.replicate (a + 1) x ++ List.replicate b y).count x = a + 1 := by
    rw [List.count_append, List.count_replicate, List.count_replicate]
    simp [hxy, Ne.symm hxy]
  have hcy : (List.replicate (a + 1) x ++ List.replicate b y).count y = b := by
    rw [List.count_append, List.count_replicate, List.count_replicate]
    simp [hxy, Ne.symm hxy]
  rw [maxByCount, hkeys, firstKeys_replicate]
  by_cases hb0 : b = 0
  · rw [if_pos hb0]; rfl
  · rw [if_neg hb0]
    show (if (List.replicate (a + 1) x ++ List.replicate b y).count y >
        (List.replicate (a + 1) x ++ List.replicate b y).count x then y else x) = x
    rw [hcx, hcy, if_neg (by omega)]

/-! ## Helper lemmas: frame parsing -/

theorem magicMarker_length (t : CodecTag) : (magicMarker t).length = 4 := by
  cases t <;> rfl

theorem fromBe32_be32 (n : Nat) (h : n < 2 ^ 32) : fromBe32 (be32 n) = n := by
  show n / 2 ^ 24 % 256 * 2 ^ 24 + n / 2 ^ 16 % 256 * 2 ^ 16 +
    n / 2 ^ 8 % 256 * 2 ^ 8 + n % 256 = n
  have e8 : (2 : Nat) ^ 8 = 256 := by norm_num
  have e16 : (2 : Nat) ^ 16 = 65536 := by norm_num
  have e24 : (2 : Nat) ^ 24 = 16777216 := by norm_num
  have e32 : (2 : Nat) ^ 32 = 4294967296 := by norm_num
  rw [e8, e16, e24] at *
  rw [e32] at h
  omega

theorem be32_length (n : Nat) : (be32 n).length = 4 := rfl

theorem parseBlocksAux_flatten (bs : Nat) (bl : List (List Nat))
    (h : ∀ b ∈ bl, b.length = bs) :
    ∀ (pre : List Nat) (i : Nat), pre.length = 8 + i * bs →
      parseBlocksAux (pre ++ bl.flatten) bs bl.length i = bl := by
  induction bl with
  | nil => intro pre i hpre; rfl
  | cons b bl ih =>
    intro pre i hpre
    have hb : b.length = bs := h b (List.mem_cons_self b bl)
    have hsucc : (i + 1) * bs = i * bs + bs := by ring
    have hcond : 8 + (i + 1) * bs ≤ (pre ++ (b :: bl).flatten).length := by
      rw [List.length_append, List.flatten_cons, List.length_append, hpre, hb, hsucc]
      omega
    show parseBlocksAux (pre ++ (b :: bl).flatten) bs (bl.length + 1) i = b :: bl
    rw [parseBlocksAux, if_pos hcond]
    have hassoc : pre ++ (b :: bl).flatten = (pre ++ b) ++ bl.flatten := by
      rw [List.flatten_cons, List.append_assoc]
    congr 1
    · rw [List.flatten_cons, ← hpre, List.drop_left, ← hb, List.take_left]
    · rw [hassoc]
      refine ih (fun b2 hb2 => h b2 (List.mem_cons_of_mem _ hb2)) (pre ++ b) (i + 1) ?_
      rw [List.length_append, hpre, hb, hsucc]
      omega

theorem parseBlocksAux_length (payload : List Nat) (bs : Nat) (hbs : 1 ≤ bs) :
    ∀ (n i : Nat), (parseBlocksAux payload bs n i).length =
      min n ((payload.length - 8) / bs - i) := by
  intro n
  induction n with
  | zero => intro i; simp [parseBlocksAux]
  | succ n ih =>
    intro i
    have hX : bs ≤ (i + 1) * bs := Nat.le_mul_of_pos_left bs (by omega)
    have hiff : (8 + (i + 1) * bs ≤ payload.length) ↔ i + 1 ≤ (payload.length - 8) / bs := by
      rw [Nat.le_div_iff_mul_le hbs]
      omega
    by_cases hc : 8 + (i + 1) * bs ≤ payload.length
    · rw [parseBlocksAux, if_pos hc, List.length_cons, ih (i + 1)]
      have := hiff.mp hc
      omega
    · rw [parseBlocksAux, if_neg hc]
      have := mt hiff.mpr hc
      simp only [List.length_nil]
      omega

theorem parseBlocksAux_mem_length (payload : List Nat) (bs : Nat) :
    ∀ (n i : Nat), ∀ b ∈ parseBlocksAux payload bs n i, b.length = bs := by
  intro n
  induction n with
  | zero => intro i b hb; simp [parseBlocksAux] at hb
  | succ n ih =>
    intro i b hb
    by_cases hc : 8 + (i + 1) * bs ≤ payload.length
    · rw [parseBlocksAux, if_pos hc] at hb
      rcases List.mem_cons.mp hb with rfl | hb
      · rw [List.length_take, List.length_drop]
        have hsucc : (i + 1) * bs = i * bs + bs := by ring
        omega
      · exact ih (i + 1) b hb
    · rw [parseBlocksAux, if_neg hc] at hb
      simp at hb

theorem applyFec_block_length (cfg : BCConfig) (blocks : List (List Nat))
    (h : ∀ b ∈ blocks, b.length = cfg.blockSize) :
    ∀ b ∈ applyFec cfg blocks, b.length = cfg.blockSize := by
  intro b hb
  match hs : cfg.fecStrategy with
  | .repetition =>
    rw [applyFec, hs] at hb
    rcases List.mem_flatten.mp hb with ⟨l, hl, hbl⟩
    rcases List.mem_map.mp hl with ⟨c, hc, rfl⟩
    rw [List.eq_of_mem_replicate hbl]
    exact h c hc
  | .xor =>
    rw [applyFec, hs, xorEncode] at hb
    by_cases hbk : blocks = []
    · rw [if_pos hbk] at hb; simp at hb
    · rw [if_neg hbk] at hb
      rcases List.mem_append.mp hb with hb | hb
      · exact h b hb
      · rw [List.eq_of_mem_replicate hb, xorParityBlock, List.length_map, List.length_range]

theorem recoverFromFec_applyFec (cfg : BCConfig) (blocks : List (List Nat))
    (hlev : cfg.fecStrategy = .repetition → 1 ≤ cfg.fecLevel) :
    recoverFromFec cfg (applyFec cfg blocks) = .ok blocks := by
  match hs : cfg.fecStrategy with
  | .repetition =>
    have hlev' : 1 ≤ cfg.fecLevel := hlev hs
    rw [applyFec, hs, recoverFromFec, hs, repetitionEncode]
    by_cases hbk : blocks = []
    · subst hbk; rfl
    · have hebne : (blocks.map (List.replicate cfg.fecLevel)).flatten ≠ [] := by
        rcases List.exists_cons_of_ne_nil hbk with ⟨b, bl, rfl⟩
        rw [List.map_cons, List.flatten_cons]
        cases hl : cfg.fecLevel with
        | zero => omega
        | succ n => simp [List.replicate_succ]
      rw [repetitionDecode, if_neg hebne, if_neg (by omega)]
      rw [chunkList_flatten_of_length cfg.fecLevel hlev' _
        (by intro c hc; rcases List.mem_map.mp hc with ⟨b, _, rfl⟩; exact List.length_replicate _ _)]
      rw [List.map_map]
      have : (majorityVote ∘ List.replicate cfg.fecLevel) = (id : List Nat → List Nat) := by
        funext b
        exact majorityVote_replicate cfg.fecLevel hlev' b
      rw [this, List.map_id]
  | .xor =>
    rw [applyFec, hs, recoverFromFec, hs, xorEncode]
    by_cases hbk : blocks = []
    · rw [if_pos hbk, hbk]; rfl
    · rw [if_neg hbk]
      have hne : blocks ++ List.replicate cfg.fecLevel (xorParityBlock cfg.blockSize blocks) ≠ [] := by
        rcases List.exists_cons_of_ne_nil hbk with ⟨b, bl, rfl⟩
        simp
      have hbpos : 1 ≤ blocks.length := List.length_pos.mpr hbk
      rw [xorDecode, if_neg hne]
      rw [List.length_append, List.length_replicate]
      rw [if_neg (by omega)]
      rw [show blocks.length + cfg.fecLevel - cfg.fecLevel = blocks.length by omega]
      rw [List.take_left]

theorem decodeE_encode (cfg : BCConfig) (tag : CodecTag) (data : List Nat)
    (hbs : 1 ≤ cfg.blockSize) (hbs32 : cfg.blockSize < 2 ^ 32)
    (hlen : data.length < 2 ^ 32)
    (hcount : (applyFec cfg (splitIntoBlocks cfg.blockSize data)).length < 2 ^ 32)
    (hlev : cfg.fecStrategy = .repetition → 1 ≤ cfg.fecLevel) :
    decodeE cfg (encode cfg data tag) tag = .ok (some data) := by
  have hbl : ∀ b ∈ splitIntoBlocks cfg.blockSize data, b.length = cfg.blockSize :=
    splitIntoBlocks_length cfg.blockSize hbs data
  have hebl : ∀ b ∈ applyFec cfg (splitIntoBlocks cfg.blockSize data),
      b.length = cfg.blockSize := applyFec_block_length cfg _ hbl
  have hE : encode cfg data tag = generateFrameMarker cfg tag data.length ++
      (be32 (applyFec cfg (splitIntoBlocks cfg.blockSize data)).length ++
        (be32 cfg.blockSize ++ (applyFec cfg (splitIntoBlocks cfg.blockSize data)).flatten)) := by
    rw [encode, assembleEncodedData, List.append_assoc, List.append_assoc]
  have hM : (generateFrameMarker cfg tag data.length).length = 18 := by
    rw [generateFrameMarker]
    simp [magicMarker_length, be32_length]
  have hEflat : encode cfg data tag = magicMarker tag ++
      (be32 data.length ++ (be32 cfg.blockSize ++ (be32 0 ++
        ([fecCode cfg.fecStrategy] ++ ([cfg.fecLevel] ++
          (be32 (applyFec cfg (splitIntoBlocks cfg.blockSize data)).length ++
            (be32 cfg.blockSize ++
              (applyFec cfg (splitIntoBlocks cfg.blockSize data)).flatten))))))) := by
    rw [encode, assembleEncodedData, generateFrameMarker]
    simp only [List.append_assoc]
  have hElen : 18 ≤ (encode cfg data tag).length := by
    rw [hE, List.length_append, hM]
    omega
  have htake4 : (encode cfg data tag).take 4 = magicMarker tag := by
    rw [hEflat]
    exact List.take_left' (magicMarker_length tag)
  have hdrop4 : ((encode cfg data tag).drop 4).take 4 = be32 data.length := by
    rw [hEflat, List.drop_left' (magicMarker_length tag)]
    exact List.take_left' (be32_length data.length)
  have hdrop18 : (encode cfg data tag).drop 18 =
      be32 (applyFec cfg (splitIntoBlocks cfg.blockSize data)).length ++
        (be32 cfg.blockSize ++ (applyFec cfg (splitIntoBlocks cfg.blockSize data)).flatten) := by
    rw [hE]
    exact List.drop_left' hM
  have hparse : parseFrameMarker (encode cfg data tag) tag = some (data.length, 18) := by
    rw [parseFrameMarker, if_neg (by omega), if_neg (by simp [htake4]), hdrop4,
      fromBe32_be32 data.length hlen]
  have hpayload : parseEncodedBlocks ((encode cfg data tag).drop 18) =
      applyFec cfg (splitIntoBlocks cfg.blockSize data) := by
    rw [hdrop18, parseEncodedBlocks]
    rw [if_neg (by simp [be32_length]; omega)]
    rw [List.take_left' (be32_length _), List.drop_left' (be32_length _),
      List.take_left' (be32_length _), fromBe32_be32 _ hcount, fromBe32_be32 _ hbs32]
    rw [← List.append_assoc]
    refine parseBlocksAux_flatten cfg.blockSize _ hebl (be32 _ ++ be32 cfg.blockSize) 0 ?_
    simp [be32_length]
  unfold decodeE
  rw [hparse]
  show (do
    let blocks ← recoverFromFec cfg (parseEncodedBlocks ((encode cfg data tag).drop 18))
    Except.ok (some (assembleFromBlocks blocks data.length))) = Except.ok (some data)
  rw [hpayload, recoverFromFec_applyFec cfg _ hlev]
  show Except.ok (some (assembleFromBlocks (splitIntoBlocks cfg.blockSize data) data.length)) =
    Except.ok (some data)
  rw [assembleFromBlocks, take_flatten_splitIntoBlocks cfg.blockSize hbs data]

theorem decode_encode (cfg : BCConfig) (tag : CodecTag) (data : List Nat)
    (hbs : 1 ≤ cfg.blockSize) (hbs32 : cfg.blockSize < 2 ^ 32)
    (hlen : data.length < 2 ^ 32)
    (hcount : (applyFec cfg (splitIntoBlocks cfg.blockSize data)).length < 2 ^ 32)
    (hlev : cfg.fecStrategy = .repetition → 1 ≤ cfg.fecLevel) :
    decode cfg (encode cfg data tag) tag = some data := by
  unfold decode
  rw [decodeE_encode cfg tag data hbs hbs32 hlen hcount hlev]

/-! ## Helper lemmas: modem -/

theorem mem_allBitLists (n : Nat) : ∀ l : List Nat,
    l ∈ allBitLists n ↔ l.length = n ∧ isBitList l := by
  induction n with
  | zero =>
    intro l
    constructor
    · intro h
      have hl : l = [] := by simpa [allBitLists] using h
      subst hl
      exact ⟨rfl, by intro b hb; simp at hb⟩
    · rintro ⟨hl, _⟩
      have : l = [] := List.eq_nil_of_length_eq_zero hl
      subst this
      simp [allBitLists]
  | succ n ih =>
    intro l
    constructor
    · intro h
      rw [allBitLists] at h
      rcases List.mem_append.mp h with h | h <;>
        rcases List.mem_map.mp h with ⟨t, ht, rfl⟩ <;>
        rcases (ih t).mp ht with ⟨htl, htb⟩
      · refine ⟨by simp [htl], ?_⟩
        intro b hb
        rcases List.mem_cons.mp hb with rfl | hb
        · exact Or.inl rfl
        · exact htb b hb
      · refine ⟨by simp [htl], ?_⟩
        intro b hb
        rcases List.mem_cons.mp hb with rfl | hb
        · exact Or.inr rfl
        · exact htb b hb
    · rintro ⟨hl, hbits⟩
      cases l with
      | nil => simp at hl
      | cons b t =>
        have hb : b = 0 ∨ b = 1 := hbits b (List.mem_cons_self b t)
        have ht : t ∈ allBitLists n :=
          (ih t).mpr ⟨by simpa using hl, fun x hx => hbits x (List.mem_cons_of_mem _ hx)⟩
        rw [allBitLists]
        rcases hb with rfl | rfl
        · exact List.mem_append.mpr (Or.inl (List.mem_map_of_mem _ ht))
        · exact List.mem_append.mpr (Or.inr (List.mem_map_of_mem _ ht))

theorem mapBitsToSymbol_const_draw (s : ModScheme) (hs : s ≠ .pi2bpsk)
    (d : Bool) (c : List Nat) : mapBitsToSymbol s d c = mapBitsToSymbol s true c := by
  cases s <;> first | rfl | exact absurd rfl hs

theorem snd_mem_of_mem_enum {α : Type _} {p : Nat × α} {l : List α}
    (hp : p ∈ l.enum) : p.2 ∈ l := by
  have h := List.mem_map_of_mem Prod.snd hp
  rw [List.enum_map_snd] at h
  exact h

theorem bitsPerSymbol_pos (s : ModScheme) : 1 ≤ bitsPerSymbol s := by
  cases s <;> decide

theorem hardDemod_modulate (s : ModScheme) (hs : s ≠ .pi2bpsk)
    (hchunk : ∀ c ∈ allBitLists (bitsPerSymbol s),
      symbolToBitsHard s (mapBitsToSymbol s true c) = c)
    (draw : Nat → Bool) (bits : List Nat) (hbits : isBitList bits)
    (hdvd : bits.length % bitsPerSymbol s = 0) :
    (modulate s draw bits).map (hardDemodulate s) = some bits := by
  have hk := bitsPerSymbol_pos s
  rw [modulate, if_pos hdvd, Option.map_some']
  congr 1
  rw [hardDemodulate, List.map_map]
  have hper : ∀ p ∈ (chunkList (bitsPerSymbol s) bits).enum,
      (symbolToBitsHard s ∘ fun p : Nat × List Nat =>
        mapBitsToSymbol s (draw p.1) p.2) p = Prod.snd p := by
    intro p hp
    have hmem : p.2 ∈ chunkList (bitsPerSymbol s) bits := snd_mem_of_mem_enum hp
    have hclen : p.2.length = bitsPerSymbol s :=
      chunkList_length_dvd _ hk bits (Nat.dvd_of_mod_eq_zero hdvd) p.2 hmem
    have hcbits : isBitList p.2 := fun x hx =>
      hbits x (chunkList_subset _ hk bits p.2 hmem x hx)
    show symbolToBitsHard s (mapBitsToSymbol s (draw p.1) p.2) = p.2
    rw [mapBitsToSymbol_const_draw s hs]
    exact hchunk p.2 ((mem_allBitLists (bitsPerSymbol s) p.2).mpr ⟨hclen, hcbits⟩)
  rw [List.map_congr_left hper, List.enum_map_snd]
  exact flatten_chunkList (bitsPerSymbol s) hk bits

theorem meanSymbolPower_const_draw (s : ModScheme) (hs : s ≠ .pi2bpsk)
    (draw : Nat → Bool) :
    meanSymbolPower s draw = meanSymbolPower s (fun _ => true) := by
  rw [meanSymbolPower, meanSymbolPower]
  congr 2
  refine List.map_congr_left ?_
  intro p _
  rw [mapBitsToSymbol_const_draw s hs]


theorem meanSymbolPower_pi2 (draw : Nat → Bool) :
    meanSymbolPower .pi2bpsk draw = 1 / 2 := by
  have h0 : ∀ d : Bool,
      symbolEnergy .pi2bpsk (mapBitsToSymbol .pi2bpsk d [0]) = 1 / 2 := by
    intro d
    cases d <;> norm_num [symbolEnergy, mapBitsToSymbol, normalizationSq]
  have h1 : ∀ d : Bool,
      symbolEnergy .pi2bpsk (mapBitsToSymbol .pi2bpsk d [1]) = 1 / 2 := by
    intro d
    cases d <;> norm_num [symbolEnergy, mapBitsToSymbol, normalizationSq]
  rw [meanSymbolPower]
  rw [show allBitLists (bitsPerSymbol .pi2bpsk) = [[0], [1]] from rfl]
  rw [show ([[0], [1]] : List (List Nat)).enum = [(0, [0]), (1, [1])] from rfl]
  simp only [List.map_cons, List.map_nil, List.sum_cons, List.sum_nil,
    List.length_cons, List.length_nil]
  rw [h0 (draw 0), h1 (draw 1)]
  norm_num

theorem meanSymbolPower_bpsk_true : meanSymbolPower .bpsk (fun _ => true) = 1 / 2 := by
  rw [meanSymbolPower]
  norm_num [allBitLists, symbolEnergy, mapBitsToSymbol, normalizationSq, bitsPerSymbol,
    List.enum, List.enumFrom]

theorem meanSymbolPower_qpsk_true : meanSymbolPower .qpsk (fun _ => true) = 1 := by
  rw [meanSymbolPower]
  norm_num [allBitLists, symbolEnergy, mapBitsToSymbol, normalizationSq, bitsPerSymbol,
    List.enum, List.enumFrom]

set_option maxHeartbeats 1000000 in
theorem meanSymbolPower_qam16_true : meanSymbolPower .qam16 (fun _ => true) = 1 := by
  rw [meanSymbolPower]
  norm_num [allBitLists, symbolEnergy, mapBitsToSymbol, normalizationSq, bitsPerSymbol,
    List.enum, List.enumFrom]

set_option maxHeartbeats 2000000 in
theorem meanSymbolPower_qam64_true : meanSymbolPower .qam64 (fun _ => true) = 1 := by
  rw [meanSymbolPower]
  norm_num [allBitLists, symbolEnergy, mapBitsToSymbol, normalizationSq, bitsPerSymbol,
    List.enum, List.enumFrom]

set_option maxHeartbeats 8000000 in
set_option maxRecDepth 8000 in
theorem meanSymbolPower_qam256_true : meanSymbolPower .qam256 (fun _ => true) = 1 := by
  rw [meanSymbolPower]
  norm_num [allBitLists, symbolEnergy, mapBitsToSymbol, normalizationSq, bitsPerSymbol,
    List.enum, List.enumFrom]

/-! ## Helper lemmas: OFDM bin mapping -/

theorem ofdmFreqBins_getD (nfft nsc : Nat) (g : List Cpx) (k : Nat) (hk : k < nfft) :
    (ofdmFreqBins nfft nsc g).getD k ((0 : ℚ), (0 : ℚ)) =
      if nfft - nsc / 2 ≤ k then g.getD (k - (nfft - nsc / 2)) ((0 : ℚ), (0 : ℚ))
      else if 1 ≤ k ∧ k ≤ nsc / 2 then g.getD (nsc / 2 + (k - 1)) ((0 : ℚ), (0 : ℚ))
      else ((0 : ℚ), (0 : ℚ)) := by
  rw [ofdmFreqBins]
  have hlen : k < ((List.range nfft).map fun k =>
      if nfft - nsc / 2 ≤ k then g.getD (k - (nfft - nsc / 2)) ((0 : ℚ), (0 : ℚ))
      else if 1 ≤ k ∧ k ≤ nsc / 2 then g.getD (nsc / 2 + (k - 1)) ((0 : ℚ), (0 : ℚ))
      else ((0 : ℚ), (0 : ℚ))).length := by
    rw [List.length_map, List.length_range]
    exact hk
  rw [List.getD_eq_getElem _ _ hlen, List.getElem_map, List.getElem_range]

theorem ofdmGroups_length (nsc : Nat) (hnsc : 1 ≤ nsc) (symbols : List Cpx) :
    ∀ g ∈ ofdmGroups nsc symbols, g.length = nsc := by
  refine chunkList_length_dvd nsc hnsc _ ?_
  rw [ofdmPadded, List.length_append, List.length_replicate]
  have hdm := Nat.div_add_mod (symbols.length + nsc - 1) nsc
  have hmlt : (symbols.length + nsc - 1) % nsc < nsc := Nat.mod_lt _ (by omega)
  have hcomm : (symbols.length + nsc - 1) / nsc * nsc =
      nsc * ((symbols.length + nsc - 1) / nsc) := Nat.mul_comm _ _
  have hge : symbols.length ≤ (symbols.length + nsc - 1) / nsc * nsc := by omega
  rw [show symbols.length + ((symbols.length + nsc - 1) / nsc * nsc - symbols.length) =
    (symbols.length + nsc - 1) / nsc * nsc from by omega]
  exact dvd_mul_left nsc _

/-! ## Claims -/

/-- C1.  The claim states the hard-demodulation round-trip law
`Modem.demodulate(Modem.modulate(bits), 'hard') == bits` for all six
schemes.  It holds for BPSK, QPSK, 16-QAM and 64-QAM (first conjunct,
for every random draw, every 0/1 bit sequence of admissible length),
but the code breaks it for 256-QAM — the bit4..bit7 decision thresholds
of `_symbol_to_bits_hard` do not match the mapping, so the all-zero
symbol demodulates to 0,0,0,0,1,1,1,1 (second conjunct) — and for
`pi/2-bpsk`, whose modulator picks the axis at random while the
demodulator only inspects the real part, so bit 0 mapped onto the
imaginary axis demodulates to 1 (third conjunct). -/
theorem c1_modem_roundtrip :
    (∀ s : ModScheme, s = .bpsk ∨ s = .qpsk ∨ s = .qam16 ∨ s = .qam64 →
      ∀ (draw : Nat → Bool) (bits : List Nat), isBitList bits →
        bits.length % bitsPerSymbol s = 0 →
        (modulate s draw bits).map (hardDemodulate s) = some bits) ∧
    (modulate .qam256 (fun _ => true) [0, 0, 0, 0, 0, 0, 0, 0]).map
      (hardDemodulate .qam256) = some [0, 0, 0, 0, 1, 1, 1, 1] ∧
    symbolToBitsHard .pi2bpsk (mapBitsToSymbol .pi2bpsk false [0]) = [1] := by
  refine ⟨?_, by decide, rfl⟩
  intro s hs draw bits hb hd
  rcases hs with rfl | rfl | rfl | rfl <;>
    exact hardDemod_modulate _ (by decide) (by decide) draw bits hb hd

/-- Witness for C1: the QPSK round trip evaluated on a concrete bit
sequence. -/
theorem c1_modem_roundtrip_witness :
    (modulate .qpsk (fun _ => true) [0, 1, 1, 0]).map (hardDemodulate .qpsk) =
      some [0, 1, 1, 0] :=
  c1_modem_roundtrip.1 .qpsk (Or.inr (Or.inl rfl)) (fun _ => true) [0, 1, 1, 0]
    (by decide) (by decide)

/-- C2 counterexample.  The claim quantifies over every FEC level, but at
repetition level 0 `_repetition_encode` emits no blocks at all, so
decoding the encoding of the one-byte payload `[7]` yields the empty
payload, not `[7]`. -/
theorem c2_roundtrip_counterexample :
    decode ⟨1, .repetition, 0⟩
      (encode ⟨1, .repetition, 0⟩ [7] .jpeg2000bgr) .jpeg2000bgr ≠ some [7] := by
  decide

/-- C2 amended: the encode/decode round trip
`BlockCodec.decode(BlockCodec.encode(B, tag), tag) == B` holds for every
payload, every codec tag and both FEC strategies, provided the positive
block size and the sizes written into the packed header fit the
`struct.pack` fields — including `fec_level < 256`, since
`struct.pack('>B', fec_level)` raises in `_generate_frame_marker` and
`encode` produces no output at all beyond that — and, for repetition,
the FEC level is at least 1 (level 0 repetition stores no copies and
cannot round-trip). -/
theorem c2_roundtrip_amended (cfg : BCConfig) (tag : CodecTag) (data : List Nat)
    (hbs : 1 ≤ cfg.blockSize) (hbs32 : cfg.blockSize < 2 ^ 32)
    (hlen : data.length < 2 ^ 32) (hlev256 : cfg.fecLevel < 256)
    (hcount : (applyFec cfg (splitIntoBlocks cfg.blockSize data)).length < 2 ^ 32)
    (hlev : cfg.fecStrategy = .repetition → 1 ≤ cfg.fecLevel) :
    decode cfg (encode cfg data tag) tag = some data :=
  decode_encode cfg tag data hbs hbs32 hlen hcount hlev

/-- Witness for the amended C2: repetition level 3, block size 4, a
five-byte payload. -/
theorem c2_roundtrip_amended_witness :
    decode ⟨4, .repetition, 3⟩
      (encode ⟨4, .repetition, 3⟩ [1, 2, 3, 4, 5] .jpeg) .jpeg = some [1, 2, 3, 4, 5] :=
  c2_roundtrip_amended ⟨4, .repetition, 3⟩ .jpeg [1, 2, 3, 4, 5]
    (by decide) (by decide) (by decide) (by decide) (by decide) (fun _ => by decide)

/-- C3.  Per-byte majority vote over the `level` copies of a block
recovers the original block whenever at most `⌊(L−1)/2⌋` of the `L`
copies are corrupted (first conjunct), and for every `L ≥ 1` there is a
corruption of exactly `⌊(L−1)/2⌋ + 1` copies that makes the vote return
a different block (second conjunct). -/
theorem c3_repetition_tolerance :
    (∀ (orig : List Nat) (copies : List (List Nat)),
      copies ≠ [] →
      (∀ c ∈ copies, c.length = orig.length) →
      (copies.filter fun c => decide (c ≠ orig)).length ≤ (copies.length - 1) / 2 →
      majorityVote copies = orig) ∧
    (∀ L : Nat, 1 ≤ L → ∃ (orig : List Nat) (copies : List (List Nat)),
      copies.length = L ∧ (∀ c ∈ copies, c.length = orig.length) ∧
      (copies.filter fun c => decide (c ≠ orig)).length = (L - 1) / 2 + 1 ∧
      majorityVote copies ≠ orig) := by
  constructor
  · intro orig copies hne hlen hcorr
    refine majorityVote_of_corrupt orig copies hne hlen ?_
    have hL := List.length_pos.mpr hne
    omega
  · intro L hL
    refine ⟨[0], List.replicate ((L - 1) / 2 + 1) [1] ++
      List.replicate (L - ((L - 1) / 2 + 1)) [0], ?_, ?_, ?_, ?_⟩
    · rw [List.length_append, List.length_replicate, List.length_replicate]
      omega
    · intro c hc
      rcases List.mem_append.mp hc with hc | hc <;>
        simp [List.eq_of_mem_replicate hc]
    · rw [List.filter_append, List.filter_replicate, List.filter_replicate]
      simp
    · have hcop : List.replicate ((L - 1) / 2 + 1) [1] ++
          List.replicate (L - ((L - 1) / 2 + 1)) [0] =
          [1] :: (List.replicate ((L - 1) / 2) [1] ++
            List.replicate (L - ((L - 1) / 2 + 1)) [0]) := by
        rw [List.replicate_succ, List.cons_append]
      rw [hcop, majorityVote]
      rw [show List.range (List.length [1]) = [0] from rfl, List.map_cons, List.map_nil]
      rw [voteAt, ← hcop]
      rw [filterMap_getElem _ 0 ?_]
      · rw [List.map_append, List.map_replicate, List.map_replicate]
        rw [show ([1] : List Nat).getD 0 0 = 1 from rfl, show ([0] : List Nat).getD 0 0 = 0 from rfl]
        rw [maxByCount_rep_app 1 0 ((L - 1) / 2) (L - ((L - 1) / 2 + 1)) (by decide) (by omega)]
        simp
      · intro c hc
        rcases List.mem_append.mp hc with hc | hc <;>
          rw [List.eq_of_mem_replicate hc] <;> decide

/-- Witness for C3: level 3 with one corrupted copy still recovers the
original single-byte block. -/
theorem c3_repetition_tolerance_witness :
    majorityVote [[5], [5], [9]] = [5] :=
  c3_repetition_tolerance.1 [5] [[5], [5], [9]] (by decide) (by decide) (by decide)

/-- C4 counterexample.  The claim says that apart from a marker mismatch
or an input shorter than 18 bytes, `decode` always returns a payload.
At repetition level 0, this 27-byte input with the matching `BLKJ`
marker and one parseable 1-byte block makes `_repetition_decode` call
`range(0, 1, 0)`, whose `ValueError` the catch-all turns into `None` —
a failure outside the claim's two failure conditions. -/
theorem c4_decode_errors_counterexample :
    18 ≤ ([66, 76, 75, 74] ++ be32 1 ++ be32 1 ++ be32 0 ++ [0, 0] ++
      be32 1 ++ be32 1 ++ [9] : List Nat).length ∧
    ([66, 76, 75, 74] ++ be32 1 ++ be32 1 ++ be32 0 ++ [0, 0] ++
      be32 1 ++ be32 1 ++ [9] : List Nat).take 4 = magicMarker .jpeg ∧
    decode ⟨1, .repetition, 0⟩
      ([66, 76, 75, 74] ++ be32 1 ++ be32 1 ++ be32 0 ++ [0, 0] ++
        be32 1 ++ be32 1 ++ [9]) .jpeg = none := by
  refine ⟨by decide, by decide, rfl⟩

/-- C4 amended.  `BlockCodec.decode` fails (returns the failure value
`None` — both failure kinds of the claim map to the same `None` result)
when the input is shorter than the 18-byte header (first conjunct) or
when the first 4 bytes differ from the codec tag's magic marker (second
conjunct); for every input with a matching marker and at least 18 bytes
it returns a payload *provided* the repetition FEC level is at least 1
(third conjunct) — at level 0 a parseable block raises inside the
decoder, which the catch-all also turns into `None`, as the
counterexample shows. -/
theorem c4_decode_errors (cfg : BCConfig) (tag : CodecTag) (data : List Nat)
    (hlev : cfg.fecStrategy = .repetition → 1 ≤ cfg.fecLevel) :
    (data.length < 18 → decode cfg data tag = none) ∧
    (data.take 4 ≠ magicMarker tag → decode cfg data tag = none) ∧
    (18 ≤ data.length → data.take 4 = magicMarker tag →
      ∃ p, decode cfg data tag = some p) := by
  refine ⟨?_, ?_, ?_⟩
  · intro h
    have h1 : parseFrameMarker data tag = none := by
      rw [parseFrameMarker, if_pos h]
    have h2 : decodeE cfg data tag = .ok none := by
      unfold decodeE
      rw [h1]
    unfold decode
    rw [h2]
  · intro h
    by_cases hlen18 : data.length < 18
    · have h1 : parseFrameMarker data tag = none := by
        rw [parseFrameMarker, if_pos hlen18]
      have h2 : decodeE cfg data tag = .ok none := by
        unfold decodeE
        rw [h1]
      unfold decode
      rw [h2]
    · have h1 : parseFrameMarker data tag = none := by
        rw [parseFrameMarker, if_neg hlen18, if_pos h]
      have h2 : decodeE cfg data tag = .ok none := by
        unfold decodeE
        rw [h1]
      unfold decode
      rw [h2]
  · intro hlen htake
    have hparse : parseFrameMarker data tag =
        some (fromBe32 ((data.drop 4).take 4), 18) := by
      rw [parseFrameMarker, if_neg (by omega), if_neg (by simp [htake])]
    have hrec : ∃ bl, recoverFromFec cfg (parseEncodedBlocks (data.drop 18)) = .ok bl := by
      match hs : cfg.fecStrategy with
      | .repetition =>
        rw [recoverFromFec, hs, repetitionDecode]
        by_cases hbk : parseEncodedBlocks (data.drop 18) = []
        · rw [if_pos hbk]
          exact ⟨[], rfl⟩
        · rw [if_neg hbk, if_neg (by have := hlev hs; omega)]
          exact ⟨_, rfl⟩
      | .xor =>
        rw [recoverFromFec, hs]
        exact ⟨_, rfl⟩
    rcases hrec with ⟨bl, hbl⟩
    refine ⟨assembleFromBlocks bl (fromBe32 ((data.drop 4).take 4)), ?_⟩
    have hdE : decodeE cfg data tag =
        .ok (some (assembleFromBlocks bl (fromBe32 ((data.drop 4).take 4)))) := by
      unfold decodeE
      rw [hparse]
      show (do
        let blocks ← recoverFromFec cfg (parseEncodedBlocks (data.drop 18))
        Except.ok (some (assembleFromBlocks blocks (fromBe32 ((data.drop 4).take 4))))) = _
      rw [hbl]
      rfl
    unfold decode
    rw [hdE]

/-- Witness for C4: the default configuration rejects a 3-byte input. -/
theorem c4_decode_errors_witness :
    decode ⟨1024, .repetition, 2⟩ [0, 1, 2] .jpeg2000bgr = none :=
  (c4_decode_errors ⟨1024, .repetition, 2⟩ .jpeg2000bgr [0, 1, 2]
    (fun _ => by decide)).1 (by decide)

/-- C5 counterexample.  The claim says a tie in the per-byte vote picks
the numerically larger byte value; with the two copies `[3]` and `[5]`
(a 1-1 tie) the code picks 3, the value counted first, not 5. -/
theorem c5_tiebreak_counterexample :
    majorityVote [[3], [5]] = [3] ∧ majorityVote [[3], [5]] ≠ [5] := by
  constructor <;> decide

/-- C5 amended: the tie-break is deterministic but favors the value
whose copy appears first in the group: with `n` copies of `[x]` followed
by `n` copies of `[y]` (an exact tie at every count), the vote returns
`x`, the first-encountered value, for every distinct `x`, `y`. -/
theorem c5_tiebreak_amended (x y n : Nat) (hxy : x ≠ y) (hn : 1 ≤ n) :
    majorityVote (List.replicate n [x] ++ List.replicate n [y]) = [x] := by
  cases n with
  | zero => omega
  | succ m =>
    have hcop : List.replicate (m + 1) [x] ++ List.replicate (m + 1) [y] =
        [x] :: (List.replicate m [x] ++ List.replicate (m + 1) [y]) := by
      rw [List.replicate_succ, List.cons_append]
    rw [hcop, majorityVote]
    rw [show List.range (List.length [x]) = [0] from rfl, List.map_cons, List.map_nil]
    rw [voteAt, ← hcop]
    rw [filterMap_getElem _ 0 ?_]
    · rw [List.map_append, List.map_replicate, List.map_replicate]
      rw [show ([x] : List Nat).getD 0 0 = x from rfl, show ([y] : List Nat).getD 0 0 = y from rfl]
      rw [maxByCount_rep_app x y m (m + 1) hxy le_rfl]
    · intro c hc
      rcases List.mem_append.mp hc with hc | hc <;>
        rw [List.eq_of_mem_replicate hc] <;> simp

/-- Witness for the amended C5: two copies each of `[3]` and `[5]`. -/
theorem c5_tiebreak_amended_witness :
    majorityVote (List.replicate 2 [3] ++ List.replicate 2 [5]) = [3] :=
  c5_tiebreak_amended 3 5 2 (by decide) (by decide)

/-- C6.  `BlockCodec.encode` emits exactly the header
`[4B magic][4B originalSize][4B blockSize][4B reserved=0]
[1B fecStrategy][1B fecLevel][4B blockCount][4B blockSize]` followed by
`blockCount` blocks of `blockSize` bytes each, with strategy code 0 for
repetition and 1 for XOR parity.  The size hypotheses keep every packed
field inside its `struct.pack` range. -/
theorem c6_frame_layout (cfg : BCConfig) (tag : CodecTag) (data : List Nat)
    (hbs : 1 ≤ cfg.blockSize) (hlen : data.length < 2 ^ 32)
    (hbs32 : cfg.blockSize < 2 ^ 32) (hlev : cfg.fecLevel < 256)
    (hcount : (applyFec cfg (splitIntoBlocks cfg.blockSize data)).length < 2 ^ 32) :
    encode cfg data tag = magicMarker tag ++ be32 data.length ++ be32 cfg.blockSize ++
      be32 0 ++ [fecCode cfg.fecStrategy] ++ [cfg.fecLevel] ++
      be32 (applyFec cfg (splitIntoBlocks cfg.blockSize data)).length ++
      be32 cfg.blockSize ++ (applyFec cfg (splitIntoBlocks cfg.blockSize data)).flatten ∧
    (∀ b ∈ applyFec cfg (splitIntoBlocks cfg.blockSize data), b.length = cfg.blockSize) ∧
    fecCode .repetition = 0 ∧ fecCode .xor = 1 := by
  refine ⟨?_, applyFec_block_length cfg _ (splitIntoBlocks_length _ hbs data), rfl, rfl⟩
  rw [encode, assembleEncodedData, generateFrameMarker]

/-- Witness for C6: XOR parity, block size 2, a three-byte payload. -/
theorem c6_frame_layout_witness :
    encode ⟨2, .xor, 1⟩ [9, 9, 9] .jpeg2000 =
      magicMarker .jpeg2000 ++ be32 3 ++ be32 2 ++ be32 0 ++ [1] ++ [1] ++
        be32 (applyFec ⟨2, .xor, 1⟩ (splitIntoBlocks 2 [9, 9, 9])).length ++ be32 2 ++
        (applyFec ⟨2, .xor, 1⟩ (splitIntoBlocks 2 [9, 9, 9])).flatten :=
  (c6_frame_layout ⟨2, .xor, 1⟩ .jpeg2000 [9, 9, 9]
    (by decide) (by decide) (by decide) (by decide) (by decide)).1

/-- C7 counterexample.  The claim says the group's lower half (its first
`nsc/2` symbols) fills bins `1 .. nsc/2`; with `nfft = 8`, `nsc = 4` and
the group `1, 2, 3, 4` the code instead places symbol 3 (from the upper
half) in bin 1. -/
theorem c7_ofdm_mapping_counterexample :
    (ofdmFreqBins 8 4 [((1 : ℚ), (0 : ℚ)), ((2 : ℚ), (0 : ℚ)),
      ((3 : ℚ), (0 : ℚ)), ((4 : ℚ), (0 : ℚ))]).getD 1 ((0 : ℚ), (0 : ℚ)) =
      ((3 : ℚ), (0 : ℚ)) ∧
    (((3 : ℚ), (0 : ℚ)) : Cpx) ≠ ((1 : ℚ), (0 : ℚ)) := by
  constructor
  · rw [ofdmFreqBins_getD 8 4 _ 1 (by omega)]
    norm_num
  · intro h
    have := congrArg Prod.fst h
    norm_num at this

/-- C7 amended: after padding, every group has `nsc` symbols; in each
group's frequency image, bin 0 (DC) is empty, bins `1 .. nsc/2` hold the
group's *upper* half (symbols `nsc/2 ..`), and the top `nsc/2` bins of
the FFT window hold the group's *lower* half (symbols `0 .. nsc/2 - 1`)
— the opposite of the claimed half assignment. -/
theorem c7_ofdm_mapping_amended (nfft nsc : Nat) (symbols : List Cpx) (g : List Cpx)
    (heven : 2 ∣ nsc) (hpos : 0 < nsc) (hlt : nsc < nfft) (hg : g.length = nsc) :
    (∀ gr ∈ ofdmGroups nsc symbols, gr.length = nsc) ∧
    (ofdmFreqBins nfft nsc g).getD 0 ((0 : ℚ), (0 : ℚ)) = ((0 : ℚ), (0 : ℚ)) ∧
    (∀ j < nsc / 2, (ofdmFreqBins nfft nsc g).getD (1 + j) ((0 : ℚ), (0 : ℚ)) =
      g.getD (nsc / 2 + j) ((0 : ℚ), (0 : ℚ))) ∧
    (∀ j < nsc / 2, (ofdmFreqBins nfft nsc g).getD (nfft - nsc / 2 + j) ((0 : ℚ), (0 : ℚ)) =
      g.getD j ((0 : ℚ), (0 : ℚ))) := by
  have h2 : nsc / 2 + nsc / 2 = nsc := by omega
  refine ⟨ofdmGroups_length nsc (by omega) symbols, ?_, ?_, ?_⟩
  · rw [ofdmFreqBins_getD nfft nsc g 0 (by omega)]
    rw [if_neg (by omega), if_neg (by omega)]
  · intro j hj
    rw [ofdmFreqBins_getD nfft nsc g (1 + j) (by omega)]
    rw [if_neg (by omega), if_pos (by omega)]
    rw [show 1 + j - 1 = j from by omega]
  · intro j hj
    rw [ofdmFreqBins_getD nfft nsc g (nfft - nsc / 2 + j) (by omega)]
    rw [if_pos (by omega)]
    rw [show nfft - nsc / 2 + j - (nfft - nsc / 2) = j from by omega]

/-- Witness for the amended C7: `nfft = 8`, `nsc = 4`, a concrete group;
bin 0 is empty. -/
theorem c7_ofdm_mapping_amended_witness :
    (ofdmFreqBins 8 4 [((1 : ℚ), (0 : ℚ)), ((2 : ℚ), (0 : ℚ)),
      ((3 : ℚ), (0 : ℚ)), ((4 : ℚ), (0 : ℚ))]).getD 0 ((0 : ℚ), (0 : ℚ)) =
      ((0 : ℚ), (0 : ℚ)) :=
  (c7_ofdm_mapping_amended 8 4 [] [((1 : ℚ), (0 : ℚ)), ((2 : ℚ), (0 : ℚ)),
    ((3 : ℚ), (0 : ℚ)), ((4 : ℚ), (0 : ℚ))]
    (by decide) (by decide) (by decide) rfl).2.1

/-- C8 counterexample.  The claim says every scheme's constellation has
mean symbol power exactly 1, but BPSK maps to `±1` and divides by `√2`,
so its mean power is 1/2. -/
theorem c8_mean_power_counterexample :
    meanSymbolPower .bpsk (fun _ => true) ≠ 1 := by
  rw [meanSymbolPower_const_draw .bpsk (by decide) (fun _ => true), meanSymbolPower_bpsk_true]
  norm_num

/-- C8 amended: the constellation mean power is exactly 1 for QPSK,
16-QAM, 64-QAM and 256-QAM, but exactly 1/2 for BPSK and π/2-BPSK
(whose `√2` normalization halves the unit-energy symbols), for every
random draw. -/
theorem c8_mean_power_amended (draw : Nat → Bool) :
    meanSymbolPower .qpsk draw = 1 ∧ meanSymbolPower .qam16 draw = 1 ∧
    meanSymbolPower .qam64 draw = 1 ∧ meanSymbolPower .qam256 draw = 1 ∧
    meanSymbolPower .bpsk draw = 1 / 2 ∧ meanSymbolPower .pi2bpsk draw = 1 / 2 := by
  refine ⟨?_, ?_, ?_, ?_, ?_, meanSymbolPower_pi2 draw⟩
  · rw [meanSymbolPower_const_draw .qpsk (by decide) draw, meanSymbolPower_qpsk_true]
  · rw [meanSymbolPower_const_draw .qam16 (by decide) draw, meanSymbolPower_qam16_true]
  · rw [meanSymbolPower_const_draw .qam64 (by decide) draw, meanSymbolPower_qam64_true]
  · rw [meanSymbolPower_const_draw .qam256 (by decide) draw, meanSymbolPower_qam256_true]
  · rw [meanSymbolPower_const_draw .bpsk (by decide) draw, meanSymbolPower_bpsk_true]

/-- Witness for the amended C8: the QPSK mean power at a concrete draw. -/
theorem c8_mean_power_amended_witness :
    meanSymbolPower .qpsk (fun _ => true) = 1 :=
  (c8_mean_power_amended (fun _ => true)).1

/-- C9.  When the input starts with neither the `BLKB` block marker nor
the `JP2B` legacy marker (no recognizable magic), and the external image
opener cannot parse the stream either, `decode_image` returns the flat
gray placeholder of the caller-supplied size together with recovery
ratio exactly 0. -/
theorem c9_unknown_placeholder {Img : Type} (ext : DecoderExt Img) (ubc : Bool)
    (cfg : BCConfig) (data : List Nat) (sz : Nat × Nat)
    (h1 : data.take 4 ≠ [66, 76, 75, 66]) (h2 : data.take 4 ≠ [74, 80, 50, 66])
    (h3 : ext.tryOpen data = none) :
    decodeImage ext ubc cfg data sz = (.grayPlaceholder sz, 0) := by
  have hdet : detectFrameType data = (.unknown, 0, data) := by
    rw [detectFrameType, if_neg h1, if_neg h2]
  unfold decodeImage
  rw [hdet]

/-- Witness for C9: a 3-byte garbage stream with a never-succeeding
opener yields the gray placeholder of the requested 776×776 size. -/
theorem c9_unknown_placeholder_witness :
    @decodeImage Unit ⟨fun _ => none, id, fun _ _ => 1, fun i _ => i⟩
      true ⟨1024, .repetition, 2⟩ [1, 2, 3] (776, 776) =
      (.grayPlaceholder (776, 776), 0) :=
  c9_unknown_placeholder ⟨fun _ => none, id, fun _ _ => 1, fun i _ => i⟩
    true ⟨1024, .repetition, 2⟩ [1, 2, 3] (776, 776) (by decide) (by decide) rfl

/-- C10.  `BlockCodec.decode` is total: every call returns the failure
value `None` or a payload (first conjunct); `_parse_encoded_blocks`
returns only whole blocks of the declared size and silently drops a
truncated trailing partial block — it yields exactly
`min blockCount ⌊(len − 8) / blockSize⌋` blocks (second conjunct); and
an exception raised inside the `try` body (repetition level 0 with a
non-empty block list, Python's `range` step-0 `ValueError`) is caught by
the blanket `except`, which returns `None` (third and fourth
conjuncts). -/
theorem c10_decode_total :
    (∀ (cfg : BCConfig) (data : List Nat) (tag : CodecTag),
      decode cfg data tag = none ∨ ∃ p, decode cfg data tag = some p) ∧
    (∀ payload : List Nat, 8 ≤ payload.length →
      1 ≤ fromBe32 ((payload.drop 4).take 4) →
      (parseEncodedBlocks payload).length =
        min (fromBe32 (payload.take 4))
          ((payload.length - 8) / fromBe32 ((payload.drop 4).take 4)) ∧
      ∀ b ∈ parseEncodedBlocks payload,
        b.length = fromBe32 ((payload.drop 4).take 4)) ∧
    decodeE ⟨1, .repetition, 0⟩
      ([66, 76, 75, 74] ++ be32 1 ++ be32 1 ++ be32 0 ++ [0, 0] ++ be32 1 ++ be32 1 ++ [9])
      .jpeg = .error ("range() arg 3 must not be zero") ∧
    decode ⟨1, .repetition, 0⟩
      ([66, 76, 75, 74] ++ be32 1 ++ be32 1 ++ be32 0 ++ [0, 0] ++ be32 1 ++ be32 1 ++ [9])
      .jpeg = none := by
  refine ⟨?_, ?_, rfl, rfl⟩
  · intro cfg data tag
    cases h : decode cfg data tag with
    | none => exact Or.inl rfl
    | some p => exact Or.inr ⟨p, rfl⟩
  · intro payload h8 hbs
    rw [parseEncodedBlocks, if_neg (by omega)]
    constructor
    · rw [parseBlocksAux_length payload _ hbs _ 0, Nat.sub_zero]
    · exact parseBlocksAux_mem_length payload _ _ 0

/-- Witness for C10: a payload declaring 3 blocks of 2 bytes but
carrying only 5 payload bytes parses to `min 3 2 = 2` whole blocks. -/
theorem c10_decode_total_witness :
    (parseEncodedBlocks (be32 3 ++ be32 2 ++ [1, 2, 3, 4, 5])).length =
      min (fromBe32 ((be32 3 ++ be32 2 ++ [1, 2, 3, 4, 5]).take 4))
        (((be32 3 ++ be32 2 ++ [1, 2, 3, 4, 5]).length - 8) /
          fromBe32 (((be32 3 ++ be32 2 ++ [1, 2, 3, 4, 5]).drop 4).take 4)) ∧
    ∀ b ∈ parseEncodedBlocks (be32 3 ++ be32 2 ++ [1, 2, 3, 4, 5]),
      b.length = fromBe32 (((be32 3 ++ be32 2 ++ [1, 2, 3, 4, 5]).drop 4).take 4) :=
  c10_decode_total.2.1 (be32 3 ++ be32 2 ++ [1, 2, 3, 4, 5]) (by decide) (by decide)
